import Mathlib

/-!
# Verification of the `connect4_gym` board engine

Shallow embedding of `src/connect4_gym.py` (class `Connect4`).  The mutable
numpy grid `self._board` (dtype int8, values 0 / 1 / -1) is modelled as a total
function `Nat → Nat → Int`; row 0 is the bottom row, exactly as in the source.
Python exceptions are modelled by dedicated result constructors that carry the
state the object holds when the exception propagates (Python mutations that
happened before the `raise` persist).  The opponent callable is modelled by the
column it returns for a given (observation, action-mask) pair, and the single
50% random draw taken in `reset` is an explicit `Bool` argument.
Rewards (Python floats 1.0 / -1.0 / 0.0, never subject to arithmetic) are
modelled as `Int`.

Degenerate boards with `rows = 0` make the Python source fail with an
`IndexError` at `self._board[-1, ...]` before any modelled check runs, so the
theorems about stepping assume `1 ≤ rows`.
-/

/-- The state of a `Connect4` instance: the configuration fixed by `__init__`
(`rows`, `columns`, `win_length`) together with the mutable fields
`self._board` and `self._num_moves`. -/
structure Connect4 where
  rows : Nat
  columns : Nat
  win_length : Nat
  board : Nat → Nat → Int
  num_moves : Nat

/-- An observation as produced by `_get_observation`: the stacked pair of
boolean planes (pieces of the viewing player, pieces of the other player).
The `astype(np.float32)` cast in the source only changes the scalar
representation (True ↦ 1.0, False ↦ 0.0), not the information content. -/
abbrev Planes := (Nat → Nat → Bool) × (Nat → Nat → Bool)

/-- An opponent policy: from (observation, action mask) to a column index,
as in the `Callable[[ObsType, NDArray[np.bool_]], int]` collaborators. -/
abbrev Opponent := Planes → (Nat → Bool) → Int

/-- Helper for `_line_length`: the length of the longest prefix of the
remaining list whose entries equal `first` (`line[0]` in the source). -/
def lineLengthAux (first : Int) : List Int → Nat
  | [] => 0
  | piece :: rest => if piece = first then lineLengthAux first rest + 1 else 0

/-- The module-level function `_line_length(line)`: iterate over `line[1:]`,
counting entries equal to `line[0]`, stopping at the first mismatch. -/
def lineLen : List Int → Nat
  | [] => 0
  | first :: rest => lineLengthAux first rest

/-- The list of board values read by one numpy slice used in `_is_win`:
`len` entries starting at `(row, col)`, stepping by `(dr, dc)` per entry.
The slice lengths passed below are exactly the lengths of the corresponding
numpy slices, so every index stays inside the grid. -/
def Connect4.dirSlice (e : Connect4) (row col : Nat) (dr dc : Int) (len : Nat) : List Int :=
  (List.range len).map fun (i : Nat) =>
    e.board ((row : Int) + (i : Int) * dr).toNat ((col : Int) + (i : Int) * dc).toNat

/-- `Connect4._is_win(row, column)`.  The four disjuncts are, in source order:
vertical (`board[row::-1, column]`, running downwards only),
horizontal (`board[row, column::-1]` + `board[row, column:]`),
rising diagonal (`board[row:, column:].diagonal()` +
`board[row::-1, column::-1].diagonal()`), and falling diagonal
(`board[row:, column::-1].diagonal()` + `board[row::-1, column:].diagonal()`). -/
def Connect4.is_win (e : Connect4) (row col : Nat) : Bool :=
  decide (e.win_length ≤ lineLen (e.dirSlice row col (-1) 0 (row + 1)) + 1) ||
  decide (e.win_length ≤ lineLen (e.dirSlice row col 0 (-1) (col + 1)) +
    lineLen (e.dirSlice row col 0 1 (e.columns - col)) + 1) ||
  decide (e.win_length ≤ lineLen (e.dirSlice row col 1 1 (min (e.rows - row) (e.columns - col))) +
    lineLen (e.dirSlice row col (-1) (-1) (min (row + 1) (col + 1))) + 1) ||
  decide (e.win_length ≤ lineLen (e.dirSlice row col 1 (-1) (min (e.rows - row) (col + 1))) +
    lineLen (e.dirSlice row col (-1) 1 (min (row + 1) (e.columns - col))) + 1)

/-- `Connect4._get_observation(player)`: plane of the viewing player's pieces
and plane of the other player's pieces. -/
def Connect4.get_observation (e : Connect4) (player : Int) : Planes :=
  (fun r c => e.board r c == player, fun r c => e.board r c == -player)

/-- `Connect4.action_masks()`: `self._board[-1] == 0`, i.e. column `c` is
legal iff the top-row cell (row `rows - 1`) of `c` is empty. -/
def Connect4.action_masks (e : Connect4) : Nat → Bool :=
  fun c => e.board (e.rows - 1) c == 0

/-- The `for row in range(self.rows)` search in `_move`: first row index
`≥ start` (scanning `fuel` rows) whose cell in column `c` is empty. -/
def findEmptyRow (g : Nat → Nat → Int) (c : Nat) : Nat → Nat → Option Nat
  | 0, _ => none
  | fuel + 1, r => if g r c = 0 then some r else findEmptyRow g c fuel (r + 1)

/-- Writing one cell of the grid (`self._board[row, column] = piece`). -/
def setCell (g : Nat → Nat → Int) (r c : Nat) (v : Int) : Nat → Nat → Int :=
  fun r' c' => if r' = r ∧ c' = c then v else g r' c'

/-- `Connect4._move(column, piece)`: `self._num_moves` is incremented first;
then the lowest empty row of the column receives the piece and is returned.
If the column has no empty cell the source raises `ValueError("invalid move")`
with the increment already applied: that path is the `none` component, and the
returned state keeps the incremented counter and the untouched grid. -/
def Connect4.move (e : Connect4) (column : Nat) (piece : Int) : Connect4 × Option Nat :=
  match findEmptyRow e.board column e.rows 0 with
  | some row =>
    ({ e with num_moves := e.num_moves + 1, board := setCell e.board row column piece }, some row)
  | none => ({ e with num_moves := e.num_moves + 1 }, none)

/-- Result of the guarded move pattern shared by `step` (lines 66-69) and
`_opponent_move` (lines 103-106): first the legality check
`not self.action_space.contains(c) or self._board[-1, c] != 0` (raising with
the state unchanged), then `self._move`.  `fullColumn` is the
`ValueError("invalid move")` raised inside `_move` itself; it carries the
state left behind by the partial mutation. -/
inductive ApplyResult where
  | ok (e : Connect4) (row : Nat)
  | illegal (e : Connect4)
  | fullColumn (e : Connect4)

/-- The guard-then-`_move` pattern.  `action_space.contains(c)` for
`spaces.Discrete(columns)` is `0 ≤ c < columns`. -/
def Connect4.apply_move (e : Connect4) (column : Int) (piece : Int) : ApplyResult :=
  if ¬(0 ≤ column ∧ column < (e.columns : Int)) ∨ e.board (e.rows - 1) column.toNat ≠ 0 then
    .illegal e
  else
    match e.move column.toNat piece with
    | (e1, some row) => .ok e1 row
    | (e1, none) => .fullColumn e1

/-- Result of `Connect4._opponent_move()`.  `illegal` is the
`ValueError(f"invalid opponent move: ...")` (state unchanged), `fullColumn`
the propagated `ValueError("invalid move")` from `_move`. -/
inductive OppResult where
  | ok (e : Connect4) (row : Nat) (column : Nat)
  | illegal (e : Connect4)
  | fullColumn (e : Connect4)

/-- `Connect4._opponent_move()`: query the opponent with the observation from
the opponent's perspective (`player = -1`) and the action mask, validate the
returned column, then place a `-1` piece with `_move`. -/
def Connect4.opponent_move (e : Connect4) (opp : Opponent) : OppResult :=
  let column := opp (e.get_observation (-1)) e.action_masks
  match e.apply_move column (-1) with
  | .ok e1 row => .ok e1 row column.toNat
  | .illegal _ => .illegal e
  | .fullColumn e1 => .fullColumn e1

/-- Result of `Connect4.step(action)`: either the returned 5-tuple (we keep
the state, reward, `terminated`, `truncated`; the observation is
`get_observation` of the state and `info` is always `{}`), or one of the
propagated exceptions, each carrying the state at the moment of the raise. -/
inductive StepResult where
  | ok (e : Connect4) (reward : Int) (terminated : Bool) (truncated : Bool)
  | illegalMove (e : Connect4)
  | illegalOpponentMove (e : Connect4)
  | moveIntoFullColumn (e : Connect4)

/-- `Connect4.step(action)`, lines 65-83 of the source. -/
def Connect4.step (e : Connect4) (opp : Opponent) (action : Int) : StepResult :=
  match e.apply_move action 1 with
  | .illegal _ => .illegalMove e
  | .fullColumn e1 => .moveIntoFullColumn e1
  | .ok e1 row =>
    if e1.is_win row action.toNat then .ok e1 1 true false
    else if e1.num_moves = e1.rows * e1.columns then .ok e1 0 true false
    else
      match e1.opponent_move opp with
      | .illegal e2 => .illegalOpponentMove e2
      | .fullColumn e2 => .moveIntoFullColumn e2
      | .ok e2 orow ocol =>
        if e2.is_win orow ocol then .ok e2 (-1) true false
        else if e2.num_moves = e2.rows * e2.columns then .ok e2 0 true false
        else .ok e2 0 false false

/-- The freshly cleared state built in `reset`:
`self._board = np.zeros(...)`, `self._num_moves = 0`. -/
def Connect4.clean (e : Connect4) : Connect4 :=
  { rows := e.rows, columns := e.columns, win_length := e.win_length,
    board := fun _ _ => 0, num_moves := 0 }

/-- Result of `Connect4.reset(...)`: either the normal return or an exception
propagated out of the optional opponent first move. -/
inductive ResetResult where
  | ok (e : Connect4)
  | illegalOpponentMove (e : Connect4)
  | moveIntoFullColumn (e : Connect4)

/-- `Connect4.reset(...)`: clear the grid and counter, then, when the random
draw `self.np_random.choice([True, False])` (argument `opponentFirst`) comes
up true, let the opponent move first via `_opponent_move`. -/
def Connect4.reset (e : Connect4) (opp : Opponent) (opponentFirst : Bool) : ResetResult :=
  let e0 := e.clean
  if opponentFirst then
    match e0.opponent_move opp with
    | .ok e1 _ _ => .ok e1
    | .illegal e1 => .illegalOpponentMove e1
    | .fullColumn e1 => .moveIntoFullColumn e1
  else
    .ok e0

/-- The state held by the environment object after `step` returns or raises. -/
def StepResult.env : StepResult → Connect4
  | .ok e _ _ _ => e
  | .illegalMove e => e
  | .illegalOpponentMove e => e
  | .moveIntoFullColumn e => e

/-- The `(reward, terminated, truncated)` part of a normal `step` return. -/
def StepResult.signal : StepResult → Option (Int × Bool × Bool)
  | .ok _ reward terminated truncated => some (reward, terminated, truncated)
  | _ => none

/-- Whether `step` raised the agent-side `ValueError("invalid action")`. -/
def StepResult.isIllegalMove : StepResult → Bool
  | .illegalMove _ => true
  | _ => false

/-- The state held by the environment object after `reset` returns or raises. -/
def ResetResult.env : ResetResult → Connect4
  | .ok e => e
  | .illegalOpponentMove e => e
  | .moveIntoFullColumn e => e

/-- Whether `reset` returned normally. -/
def ResetResult.isOk : ResetResult → Bool
  | .ok _ => true
  | _ => false

/-- Number of occupied cells of a `rows × columns` grid. -/
def pieceCount (rows columns : Nat) (g : Nat → Nat → Int) : Nat :=
  ((Finset.range rows ×ˢ Finset.range columns).filter fun p => g p.1 p.2 ≠ 0).card

/-- Number of occupied cells of the grid. -/
def Connect4.countPieces (e : Connect4) : Nat :=
  pieceCount e.rows e.columns e.board

/-- Number of cells that are set in at least one of the two observation
planes for viewing player `player`. -/
def Connect4.obsCount (e : Connect4) (player : Int) : Nat :=
  ((Finset.range e.rows ×ˢ Finset.range e.columns).filter fun p =>
    (e.get_observation player).1 p.1 p.2 = true ∨
      (e.get_observation player).2 p.1 p.2 = true).card

/-- The states reachable through the public operations: any `reset` outcome
(from an arbitrary prior state — `reset` reads only the configuration), and
any `step` outcome from a reachable state, including the states carried by
propagated exceptions.  `action_masks` and `_get_observation` do not write
any field and produce no new state. -/
inductive Connect4.Reachable : Connect4 → Prop where
  | ofReset (e : Connect4) (opp : Opponent) (b : Bool) (hr : 1 ≤ e.rows) :
      Connect4.Reachable (e.reset opp b).env
  | ofStep (e : Connect4) (opp : Opponent) (a : Int) :
      Connect4.Reachable e → Connect4.Reachable ((e.step opp a).env)

/-! ## Characterisation of `_line_length` and of the row search in `_move` -/

theorem lineLengthAux_ge_iff (x : Int) (l : List Int) (n : Nat) :
    n ≤ lineLengthAux x l ↔ ∀ i, i < n → l[i]? = some x := by
  induction l generalizing n with
  | nil =>
    simp only [lineLengthAux, Nat.le_zero, List.getElem?_nil]
    constructor
    · rintro rfl
      intro i hi
      exact absurd hi (Nat.not_lt_zero i)
    · intro h
      by_contra hn
      exact Option.noConfusion (h 0 (Nat.pos_of_ne_zero hn))
  | cons y ys ih =>
    cases n with
    | zero => simp
    | succ m =>
      simp only [lineLengthAux]
      by_cases hy : y = x
      · subst hy
        rw [if_pos rfl, Nat.succ_le_succ_iff, ih]
        constructor
        · intro h i hi
          cases i with
          | zero => simp
          | succ j => simpa using h j (by omega)
        · intro h i hi
          simpa using h (i + 1) (by omega)
      · rw [if_neg hy]
        constructor
        · intro h
          omega
        · intro h
          have h0 := h 0 (by omega)
          simp only [List.getElem?_cons_zero, Option.some.injEq] at h0
          exact absurd h0 hy

theorem findEmptyRow_none_iff (g : Nat → Nat → Int) (c : Nat) (fuel start : Nat) :
    findEmptyRow g c fuel start = none ↔ ∀ i, i < fuel → g (start + i) c ≠ 0 := by
  induction fuel generalizing start with
  | zero => simp [findEmptyRow]
  | succ f ih =>
    simp only [findEmptyRow]
    by_cases h : g start c = 0
    · rw [if_pos h]
      constructor
      · intro hc
        exact Option.noConfusion hc
      · intro hall
        exact absurd h (by simpa using hall 0 (by omega))
    · rw [if_neg h, ih]
      constructor
      · intro hall i hi
        cases i with
        | zero => simpa using h
        | succ j =>
          have hj := hall j (by omega)
          have e1 : start + 1 + j = start + (j + 1) := by omega
          rwa [e1] at hj
      · intro hall i hi
        have hj := hall (i + 1) (by omega)
        have e1 : start + (i + 1) = start + 1 + i := by omega
        rwa [e1] at hj

theorem findEmptyRow_some (g : Nat → Nat → Int) (c : Nat) (fuel start r : Nat)
    (h : findEmptyRow g c fuel start = some r) :
    start ≤ r ∧ r < start + fuel ∧ g r c = 0 ∧ ∀ r', start ≤ r' → r' < r → g r' c ≠ 0 := by
  induction fuel generalizing start with
  | zero => exact Option.noConfusion h
  | succ f ih =>
    simp only [findEmptyRow] at h
    by_cases h0 : g start c = 0
    · rw [if_pos h0] at h
      obtain rfl : start = r := Option.some.inj h
      exact ⟨le_rfl, by omega, h0, fun r' h1 h2 => absurd (Nat.lt_of_le_of_lt h1 h2) (lt_irrefl _)⟩
    · rw [if_neg h0] at h
      obtain ⟨h1, h2, h3, h4⟩ := ih (start + 1) h
      refine ⟨by omega, by omega, h3, ?_⟩
      intro r' hr1 hr2
      rcases Nat.eq_or_lt_of_le hr1 with rfl | hlt
      · exact h0
      · exact h4 r' (by omega) hr2

theorem findEmptyRow_isSome (g : Nat → Nat → Int) (c rows : Nat) (hr : 1 ≤ rows)
    (htop : g (rows - 1) c = 0) : ∃ r, findEmptyRow g c rows 0 = some r := by
  cases hfind : findEmptyRow g c rows 0 with
  | some r => exact ⟨r, rfl⟩
  | none =>
    rw [findEmptyRow_none_iff] at hfind
    have hbad := hfind (rows - 1) (by omega)
    rw [Nat.zero_add] at hbad
    exact absurd htop hbad

/-! ## Counting pieces -/

theorem pieceCount_setCell (rows columns : Nat) (g : Nat → Nat → Int) (r c : Nat) (v : Int)
    (hr : r < rows) (hc : c < columns) (hempty : g r c = 0) (hv : v ≠ 0) :
    pieceCount rows columns (setCell g r c v) = pieceCount rows columns g + 1 := by
  classical
  unfold pieceCount
  have hset :
      ((Finset.range rows ×ˢ Finset.range columns).filter fun p => setCell g r c v p.1 p.2 ≠ 0)
        = insert (r, c)
            ((Finset.range rows ×ˢ Finset.range columns).filter fun p => g p.1 p.2 ≠ 0) := by
    ext p
    simp only [Finset.mem_filter, Finset.mem_insert, Finset.mem_product, Finset.mem_range]
    constructor
    · rintro ⟨⟨hp1, hp2⟩, hne⟩
      by_cases hpc : p = (r, c)
      · exact Or.inl hpc
      · refine Or.inr ⟨⟨hp1, hp2⟩, ?_⟩
        unfold setCell at hne
        rw [if_neg] at hne
        · exact hne
        · intro hcon
          apply hpc
          rw [Prod.ext_iff]
          exact hcon
    · rintro (rfl | ⟨⟨hp1, hp2⟩, hne⟩)
      · refine ⟨⟨hr, hc⟩, ?_⟩
        unfold setCell
        rw [if_pos ⟨rfl, rfl⟩]
        exact hv
      · refine ⟨⟨hp1, hp2⟩, ?_⟩
        unfold setCell
        by_cases hpc : p.1 = r ∧ p.2 = c
        · rw [if_pos hpc]
          exact hv
        · rw [if_neg hpc]
          exact hne
  rw [hset, Finset.card_insert_of_not_mem]
  simp only [Finset.mem_filter, not_and, ne_eq, not_not]
  intro _
  exact hempty

theorem pieceCount_zero (rows columns : Nat) :
    pieceCount rows columns (fun _ _ => 0) = 0 := by
  unfold pieceCount
  rw [Finset.filter_false_of_mem]
  · exact Finset.card_empty
  · intro p _
    simp

theorem pieceCount_full (rows columns : Nat) (g : Nat → Nat → Int)
    (h : ∀ r c, r < rows → c < columns → g r c ≠ 0) :
    pieceCount rows columns g = rows * columns := by
  unfold pieceCount
  rw [Finset.filter_true_of_mem]
  · rw [Finset.card_product]
    simp [Finset.card_range]
  · intro p hp
    simp only [Finset.mem_product, Finset.mem_range] at hp
    exact h p.1 p.2 hp.1 hp.2

/-! ## The state invariant preserved by every public operation -/

/-- States with at least one row, a piece count that matches `num_moves`, and
only the three legal cell values. -/
def Connect4.Inv (e : Connect4) : Prop :=
  1 ≤ e.rows ∧ e.countPieces = e.num_moves ∧
    ∀ r c, e.board r c = 0 ∨ e.board r c = 1 ∨ e.board r c = -1

theorem apply_move_illegal_eq (e : Connect4) (col : Int) (p : Int)
    (h : ¬(0 ≤ col ∧ col < (e.columns : Int) ∧ e.board (e.rows - 1) col.toNat = 0)) :
    e.apply_move col p = .illegal e := by
  unfold Connect4.apply_move
  rw [if_pos]
  push_neg at h
  by_cases h1 : 0 ≤ col ∧ col < (e.columns : Int)
  · exact Or.inr (h h1.1 h1.2)
  · exact Or.inl h1

theorem apply_move_ok (e : Connect4) (col : Int) (p : Int)
    (hleg : 0 ≤ col ∧ col < (e.columns : Int) ∧ e.board (e.rows - 1) col.toNat = 0)
    (hr : 1 ≤ e.rows) :
    ∃ row, e.apply_move col p =
        .ok { e with num_moves := e.num_moves + 1,
                     board := setCell e.board row col.toNat p } row ∧
      row < e.rows ∧ e.board row col.toNat = 0 ∧ ∀ r', r' < row → e.board r' col.toNat ≠ 0 := by
  obtain ⟨r, hfind⟩ := findEmptyRow_isSome e.board col.toNat e.rows hr hleg.2.2
  have hprops := findEmptyRow_some e.board col.toNat e.rows 0 r hfind
  refine ⟨r, ?_, by omega, hprops.2.2.1, fun r' hlt => hprops.2.2.2 r' (Nat.zero_le _) hlt⟩
  unfold Connect4.apply_move
  rw [if_neg]
  · unfold Connect4.move
    rw [hfind]
  · push_neg
    exact ⟨⟨hleg.1, hleg.2.1⟩, hleg.2.2⟩

theorem apply_move_ne_fullColumn (e : Connect4) (col : Int) (p : Int) (hr : 1 ≤ e.rows) :
    ∀ e', e.apply_move col p ≠ .fullColumn e' := by
  intro e' hcon
  unfold Connect4.apply_move at hcon
  by_cases hguard : ¬(0 ≤ col ∧ col < (e.columns : Int)) ∨ e.board (e.rows - 1) col.toNat ≠ 0
  · rw [if_pos hguard] at hcon
    exact ApplyResult.noConfusion hcon
  · rw [if_neg hguard] at hcon
    push_neg at hguard
    obtain ⟨r, hfind⟩ := findEmptyRow_isSome e.board col.toNat e.rows hr hguard.2
    unfold Connect4.move at hcon
    rw [hfind] at hcon
    exact ApplyResult.noConfusion hcon

/-- Under `1 ≤ rows`, a guarded move either rejects the column with the state
unchanged or succeeds; the success state has one more piece, one more move,
the same configuration, and cells drawn from the old grid plus the piece. -/
theorem apply_move_cases (e : Connect4) (col : Int) (p : Int) (hr : 1 ≤ e.rows) (hp : p ≠ 0) :
    e.apply_move col p = .illegal e ∨
      ∃ e1 r, e.apply_move col p = .ok e1 r ∧
        e1.rows = e.rows ∧ e1.columns = e.columns ∧ e1.win_length = e.win_length ∧
        e1.num_moves = e.num_moves + 1 ∧ e1.countPieces = e.countPieces + 1 ∧
        ∀ r' c', e1.board r' c' = e.board r' c' ∨ e1.board r' c' = p := by
  by_cases hleg : 0 ≤ col ∧ col < (e.columns : Int) ∧ e.board (e.rows - 1) col.toNat = 0
  · right
    obtain ⟨r, hok, hrow, hcell, _⟩ := apply_move_ok e col p hleg hr
    refine ⟨_, r, hok, rfl, rfl, rfl, rfl, ?_, ?_⟩
    · have hcnat : col.toNat < e.columns := by
        have h1 := hleg.1
        have h2 := hleg.2.1
        omega
      exact pieceCount_setCell e.rows e.columns e.board r col.toNat p hrow hcnat hcell hp
    · intro r' c'
      by_cases h : r' = r ∧ c' = col.toNat
      · right
        show setCell e.board r col.toNat p r' c' = p
        unfold setCell
        rw [if_pos h]
      · left
        show setCell e.board r col.toNat p r' c' = e.board r' c'
        unfold setCell
        rw [if_neg h]
  · exact Or.inl (apply_move_illegal_eq e col p hleg)

theorem opponent_move_eq (e : Connect4) (opp : Opponent) :
    e.opponent_move opp =
      match e.apply_move (opp (e.get_observation (-1)) e.action_masks) (-1) with
      | .ok e1 row => OppResult.ok e1 row (opp (e.get_observation (-1)) e.action_masks).toNat
      | .illegal _ => OppResult.illegal e
      | .fullColumn e1 => OppResult.fullColumn e1 := rfl

theorem inv_step (e : Connect4) (opp : Opponent) (a : Int) (h : e.Inv) :
    ((e.step opp a).env).Inv := by
  obtain ⟨hr, hcount, hvals⟩ := h
  have hInv : e.Inv := ⟨hr, hcount, hvals⟩
  rcases apply_move_cases e a 1 hr (by decide) with
    hill | ⟨e1, r, hok, hr1, hc1, hw1, hm1, hcnt1, hb1⟩
  · unfold Connect4.step
    rw [hill]
    exact hInv
  · have hInv1 : e1.Inv := by
      refine ⟨by omega, by rw [hcnt1, hm1, hcount], ?_⟩
      intro r' c'
      rcases hb1 r' c' with hsame | hone
      · rw [hsame]
        exact hvals r' c'
      · rw [hone]
        exact Or.inr (Or.inl rfl)
    unfold Connect4.step
    rw [hok]
    show (if e1.is_win r a.toNat then StepResult.ok e1 1 true false
      else if e1.num_moves = e1.rows * e1.columns then StepResult.ok e1 0 true false
      else match e1.opponent_move opp with
        | .illegal e2 => StepResult.illegalOpponentMove e2
        | .fullColumn e2 => StepResult.moveIntoFullColumn e2
        | .ok e2 orow ocol =>
          if e2.is_win orow ocol then StepResult.ok e2 (-1) true false
          else if e2.num_moves = e2.rows * e2.columns then StepResult.ok e2 0 true false
          else StepResult.ok e2 0 false false).env.Inv
    by_cases hw : e1.is_win r a.toNat
    · rw [if_pos hw]
      exact hInv1
    · rw [if_neg hw]
      by_cases hf : e1.num_moves = e1.rows * e1.columns
      · rw [if_pos hf]
        exact hInv1
      · rw [if_neg hf]
        obtain ⟨hr1', hcount1, hvals1⟩ := hInv1
        rcases apply_move_cases e1 (opp (e1.get_observation (-1)) e1.action_masks) (-1) hr1'
            (by decide) with
          hill2 | ⟨e2, r2, hok2, hr2, hc2, hw2, hm2, hcnt2, hb2⟩
        · rw [opponent_move_eq, hill2]
          exact ⟨hr1', hcount1, hvals1⟩
        · have hInv2 : e2.Inv := by
            refine ⟨by omega, by rw [hcnt2, hm2, hcount1], ?_⟩
            intro r' c'
            rcases hb2 r' c' with hsame | hneg
            · rw [hsame]
              exact hvals1 r' c'
            · rw [hneg]
              exact Or.inr (Or.inr rfl)
          rw [opponent_move_eq, hok2]
          show (if e2.is_win r2 _ then StepResult.ok e2 (-1) true false
            else if e2.num_moves = e2.rows * e2.columns then StepResult.ok e2 0 true false
            else StepResult.ok e2 0 false false).env.Inv
          by_cases hw2' : e2.is_win r2 (opp (e1.get_observation (-1)) e1.action_masks).toNat
          · rw [if_pos hw2']
            exact hInv2
          · rw [if_neg hw2']
            by_cases hf2 : e2.num_moves = e2.rows * e2.columns
            · rw [if_pos hf2]
              exact hInv2
            · rw [if_neg hf2]
              exact hInv2

theorem inv_clean (e : Connect4) (hr : 1 ≤ e.rows) : e.clean.Inv := by
  refine ⟨hr, ?_, fun r c => Or.inl rfl⟩
  show pieceCount e.rows e.columns (fun _ _ => 0) = 0
  exact pieceCount_zero e.rows e.columns

theorem inv_reset (e : Connect4) (opp : Opponent) (b : Bool) (hr : 1 ≤ e.rows) :
    ((e.reset opp b).env).Inv := by
  have hclean := inv_clean e hr
  cases b with
  | false => exact hclean
  | true =>
    have hres : e.reset opp true =
        match e.clean.opponent_move opp with
        | .ok e1 _ _ => ResetResult.ok e1
        | .illegal e1 => ResetResult.illegalOpponentMove e1
        | .fullColumn e1 => ResetResult.moveIntoFullColumn e1 := rfl
    obtain ⟨hrc, hcountc, hvalsc⟩ := hclean
    rcases apply_move_cases e.clean (opp (e.clean.get_observation (-1)) e.clean.action_masks)
        (-1) hrc (by decide) with
      hill | ⟨e1, r, hok, hr1, hc1, hw1, hm1, hcnt1, hb1⟩
    · rw [hres, opponent_move_eq, hill]
      exact ⟨hrc, hcountc, hvalsc⟩
    · rw [hres, opponent_move_eq, hok]
      show e1.Inv
      refine ⟨by omega, by rw [hcnt1, hm1, hcountc], ?_⟩
      intro r' c'
      rcases hb1 r' c' with hsame | hneg
      · rw [hsame]
        exact hvalsc r' c'
      · rw [hneg]
        exact Or.inr (Or.inr rfl)

/-- Every reachable state satisfies the invariant. -/
theorem reachable_inv (e : Connect4) (h : e.Reachable) : e.Inv := by
  induction h with
  | ofReset e opp b hr => exact inv_reset e opp b hr
  | ofStep e opp a _ ih => exact inv_step e opp a ih

/-! ## The full-board rescan oracle for `_is_win` -/

/-- A signed coordinate pair lies on the `rows × columns` grid. -/
def inBounds (rows columns : Nat) (r c : Int) : Prop :=
  0 ≤ r ∧ r < (rows : Int) ∧ 0 ≤ c ∧ c < (columns : Int)

instance inBoundsDec (rows columns : Nat) (r c : Int) : Decidable (inBounds rows columns r c) :=
  inferInstanceAs (Decidable (0 ≤ r ∧ r < (rows : Int) ∧ 0 ≤ c ∧ c < (columns : Int)))

/-- The grid value at a signed coordinate, reading 0 (empty) off the grid. -/
def cellValue (g : Nat → Nat → Int) (rows columns : Nat) (r c : Int) : Int :=
  if inBounds rows columns r c then g r.toNat c.toNat else 0

theorem cellValue_of_inBounds (g : Nat → Nat → Int) (rows columns : Nat) (r c : Int)
    (h : inBounds rows columns r c) : cellValue g rows columns r c = g r.toNat c.toNat :=
  if_pos h

theorem cellValue_of_notInBounds (g : Nat → Nat → Int) (rows columns : Nat) (r c : Int)
    (h : ¬inBounds rows columns r c) : cellValue g rows columns r c = 0 :=
  if_neg h

theorem inBounds_of_cellValue_ne_zero (g : Nat → Nat → Int) (rows columns : Nat) (r c : Int)
    (h : cellValue g rows columns r c ≠ 0) : inBounds rows columns r c := by
  by_cases hb : inBounds rows columns r c
  · exact hb
  · exact absurd (cellValue_of_notInBounds g rows columns r c hb) h

/-- `_line_length` on one of the `_is_win` slices, rephrased through
`cellValue`: the count reaches `n` iff the `n` cells after the start cell in
the slice direction all hold the start cell's value (out-of-grid reads give 0
and can never match, because the start cell is non-empty). -/
theorem lineLen_dirSlice_ge_iff (e : Connect4) (row col : Nat) (dr dc : Int) (len : Nat)
    (n : Nat) (hrow : row < e.rows) (hcol : col < e.columns) (hpiece : e.board row col ≠ 0)
    (hlen : ∀ i : Nat,
      i < len ↔ inBounds e.rows e.columns ((row : Int) + i * dr) ((col : Int) + i * dc)) :
    n ≤ lineLen (e.dirSlice row col dr dc len) ↔
      ∀ t : Nat, t < n →
        cellValue e.board e.rows e.columns ((row : Int) + ((t : Int) + 1) * dr)
          ((col : Int) + ((t : Int) + 1) * dc) = e.board row col := by
  have hlen0 : 0 < len := by
    rw [hlen 0]
    unfold inBounds
    simp only [Nat.cast_zero, zero_mul, add_zero]
    omega
  obtain ⟨m, rfl⟩ : ∃ m, len = m + 1 := ⟨len - 1, by omega⟩
  have hslice : e.dirSlice row col dr dc (m + 1) =
      e.board row col :: (List.range m).map
        (fun (i : Nat) => e.board ((row : Int) + ((i : Int) + 1) * dr).toNat
          ((col : Int) + ((i : Int) + 1) * dc).toNat) := by
    unfold Connect4.dirSlice
    rw [List.range_succ_eq_map, List.map_cons, List.map_map]
    congr 1
    · simp
  rw [hslice]
  show n ≤ lineLengthAux (e.board row col) _ ↔ _
  rw [lineLengthAux_ge_iff]
  constructor
  · intro h t ht
    have hget := h t ht
    by_cases hm : t < m
    · rw [List.getElem?_map, List.getElem?_range hm] at hget
      simp only [Option.map_some', Option.some.injEq] at hget
      have hin : inBounds e.rows e.columns ((row : Int) + ((t : Int) + 1) * dr)
          ((col : Int) + ((t : Int) + 1) * dc) := by
        have := (hlen (t + 1)).mp (by omega)
        have hc : ((t + 1 : Nat) : Int) = (t : Int) + 1 := by push_cast; ring
        rwa [hc] at this
      rw [cellValue_of_inBounds _ _ _ _ _ hin]
      exact hget
    · exfalso
      rw [List.getElem?_map] at hget
      rw [List.getElem?_eq_none] at hget
      · exact Option.noConfusion hget
      · rw [List.length_range]
        omega
  · intro h i hi
    have hcell := h i hi
    have hm : i < m := by
      by_contra hm
      have hnotin : ¬inBounds e.rows e.columns ((row : Int) + ((i : Int) + 1) * dr)
          ((col : Int) + ((i : Int) + 1) * dc) := by
        intro hin
        have hc : ((i + 1 : Nat) : Int) = (i : Int) + 1 := by push_cast; ring
        have := (hlen (i + 1)).mpr (by rwa [hc])
        omega
      rw [cellValue_of_notInBounds _ _ _ _ _ hnotin] at hcell
      exact hpiece hcell.symm
    rw [List.getElem?_map, List.getElem?_range hm]
    simp only [Option.map_some', Option.some.injEq]
    have hin : inBounds e.rows e.columns ((row : Int) + ((i : Int) + 1) * dr)
        ((col : Int) + ((i : Int) + 1) * dc) := by
      have := (hlen (i + 1)).mp (by omega)
      have hc : ((i + 1 : Nat) : Int) = (i : Int) + 1 := by push_cast; ring
      rwa [hc] at this
    rw [cellValue_of_inBounds _ _ _ _ _ hin] at hcell
    exact hcell

/-- Abstract form of the two-directional count used by `_is_win`.  `P s` says
that the cell `s` steps along the axis from the placed piece holds the
piece's value; `B` and `F` are the backward and forward counts (`P` holds on
exactly an initial segment in each direction, which is what `hB`/`hF` state,
in both directions of the iff).  Then the counts reach `W` iff some window of
`W` consecutive cells through the placed piece (offset positions
`-k, …, W - 1 - k` for some `k < W`) is all matching. -/
theorem window_iff (P : Int → Prop) (B F W : Nat)
    (h0 : P 0)
    (hB : ∀ n : Nat, n ≤ B ↔ ∀ i : Nat, i < n → P (-((i : Int) + 1)))
    (hF : ∀ n : Nat, n ≤ F ↔ ∀ i : Nat, i < n → P ((i : Int) + 1))
    (hW : 1 ≤ W) :
    W ≤ B + F + 1 ↔ ∃ k : Nat, k < W ∧ ∀ i : Nat, i < W → P ((i : Int) - (k : Int)) := by
  constructor
  · intro h
    refine ⟨min B (W - 1), by omega, ?_⟩
    intro i hi
    rcases lt_trichotomy i (min B (W - 1)) with hik | hik | hik
    · have hj : min B (W - 1) - i - 1 < B := by omega
      have hp := (hB B).mp le_rfl (min B (W - 1) - i - 1) hj
      have harg : ((i : Int) - ((min B (W - 1) : Nat) : Int))
          = -(((min B (W - 1) - i - 1 : Nat) : Int) + 1) := by omega
      rw [harg]
      exact hp
    · have harg : ((i : Int) - ((min B (W - 1) : Nat) : Int)) = 0 := by omega
      rw [harg]
      exact h0
    · have hj : i - min B (W - 1) - 1 < F := by omega
      have hp := (hF F).mp le_rfl (i - min B (W - 1) - 1) hj
      have harg : ((i : Int) - ((min B (W - 1) : Nat) : Int))
          = ((i - min B (W - 1) - 1 : Nat) : Int) + 1 := by omega
      rw [harg]
      exact hp
  · rintro ⟨k, hk, hall⟩
    have hkB : k ≤ B := by
      rw [hB]
      intro i hi
      have hp := hall (k - i - 1) (by omega)
      have harg : ((k - i - 1 : Nat) : Int) - (k : Int) = -((i : Int) + 1) := by omega
      rwa [harg] at hp
    have hkF : W - 1 - k ≤ F := by
      rw [hF]
      intro i hi
      have hp := hall (i + k + 1) (by omega)
      have harg : ((i + k + 1 : Nat) : Int) - (k : Int) = (i : Int) + 1 := by omega
      rwa [harg] at hp
    omega

theorem inBounds_def (rows columns : Nat) (r c : Int) :
    inBounds rows columns r c ↔
      0 ≤ r ∧ r < (rows : Int) ∧ 0 ≤ c ∧ c < (columns : Int) := Iff.rfl

/-- The four scan axes of the spec: vertical, horizontal, rising diagonal,
falling diagonal (as unit step vectors `(Δrow, Δcolumn)`). -/
def axisDir : Fin 4 → Int × Int
  | 0 => (1, 0)
  | 1 => (0, 1)
  | 2 => (1, 1)
  | 3 => (1, -1)

/-- The spec's full-board rescan oracle, written independently of the
incremental algorithm: some window of `win_length` consecutive cells along one
of the four axes passes through `(row, col)` (at offset `k` inside the
window), stays on the grid, and holds the value of the piece at `(row, col)`
everywhere.  For `win_length ≥ 1` this says exactly that a contiguous run of
length `≥ win_length` of that value goes through the cell. -/
def Connect4.rescanWinAt (e : Connect4) (row col : Nat) : Prop :=
  ∃ d : Fin 4, ∃ k : Nat, k < e.win_length ∧ ∀ i : Nat, i < e.win_length →
    inBounds e.rows e.columns ((row : Int) + ((i : Int) - (k : Int)) * (axisDir d).1)
        ((col : Int) + ((i : Int) - (k : Int)) * (axisDir d).2) ∧
      cellValue e.board e.rows e.columns
        ((row : Int) + ((i : Int) - (k : Int)) * (axisDir d).1)
        ((col : Int) + ((i : Int) - (k : Int)) * (axisDir d).2) = e.board row col

theorem inBounds_and_cellValue_iff (g : Nat → Nat → Int) (rows columns : Nat) (r c : Int)
    (piece : Int) (hp : piece ≠ 0) :
    (inBounds rows columns r c ∧ cellValue g rows columns r c = piece) ↔
      cellValue g rows columns r c = piece := by
  constructor
  · exact And.right
  · intro h
    refine ⟨inBounds_of_cellValue_ne_zero g rows columns r c ?_, h⟩
    rw [h]
    exact hp

/-- Two-directional axes: the code's `back count + forward count + 1 ≥ W`
test is equivalent to the existence of an all-matching window of `W`
consecutive cells through the placed piece along the axis `(a, b)`. -/
theorem axis_window_iff (e : Connect4) (row col : Nat) (a b : Int)
    (hrow : row < e.rows) (hcol : col < e.columns) (hpiece : e.board row col ≠ 0)
    (hW : 1 ≤ e.win_length) (lenB lenF : Nat)
    (hlenB : ∀ i : Nat, i < lenB ↔
      inBounds e.rows e.columns ((row : Int) + (i : Int) * (-a)) ((col : Int) + (i : Int) * (-b)))
    (hlenF : ∀ i : Nat, i < lenF ↔
      inBounds e.rows e.columns ((row : Int) + (i : Int) * a) ((col : Int) + (i : Int) * b)) :
    (e.win_length ≤
        lineLen (e.dirSlice row col (-a) (-b) lenB) + lineLen (e.dirSlice row col a b lenF) + 1 ↔
      ∃ k : Nat, k < e.win_length ∧ ∀ i : Nat, i < e.win_length →
        cellValue e.board e.rows e.columns ((row : Int) + ((i : Int) - (k : Int)) * a)
          ((col : Int) + ((i : Int) - (k : Int)) * b) = e.board row col) := by
  have h0 : cellValue e.board e.rows e.columns ((row : Int) + 0 * a) ((col : Int) + 0 * b)
      = e.board row col := by
    rw [zero_mul, zero_mul, add_zero, add_zero, cellValue_of_inBounds]
    · rw [Int.toNat_natCast, Int.toNat_natCast]
    · rw [inBounds_def]
      omega
  have hB : ∀ n : Nat, n ≤ lineLen (e.dirSlice row col (-a) (-b) lenB) ↔
      ∀ i : Nat, i < n →
        cellValue e.board e.rows e.columns ((row : Int) + (-((i : Int) + 1)) * a)
          ((col : Int) + (-((i : Int) + 1)) * b) = e.board row col := by
    intro n
    rw [lineLen_dirSlice_ge_iff e row col (-a) (-b) lenB n hrow hcol hpiece hlenB]
    apply forall_congr'
    intro t
    apply imp_congr_right
    intro _
    rw [show ((row : Int) + ((t : Int) + 1) * (-a))
        = ((row : Int) + (-((t : Int) + 1)) * a) from by ring,
      show ((col : Int) + ((t : Int) + 1) * (-b))
        = ((col : Int) + (-((t : Int) + 1)) * b) from by ring]
  have hF : ∀ n : Nat, n ≤ lineLen (e.dirSlice row col a b lenF) ↔
      ∀ i : Nat, i < n →
        cellValue e.board e.rows e.columns ((row : Int) + ((i : Int) + 1) * a)
          ((col : Int) + ((i : Int) + 1) * b) = e.board row col :=
    fun n => lineLen_dirSlice_ge_iff e row col a b lenF n hrow hcol hpiece hlenF
  exact window_iff
    (fun s => cellValue e.board e.rows e.columns ((row : Int) + s * a) ((col : Int) + s * b)
      = e.board row col)
    (lineLen (e.dirSlice row col (-a) (-b) lenB)) (lineLen (e.dirSlice row col a b lenF))
    e.win_length h0 hB hF hW

/-- The vertical axis: the code only counts downwards, which matches the
two-directional window test because every cell above the just-placed piece is
still empty. -/
theorem vertical_window_iff (e : Connect4) (row col : Nat)
    (hrow : row < e.rows) (hcol : col < e.columns) (hpiece : e.board row col ≠ 0)
    (hW : 1 ≤ e.win_length)
    (habove : ∀ r : Nat, r < e.rows → row < r → e.board r col = 0) :
    (e.win_length ≤ lineLen (e.dirSlice row col (-1) 0 (row + 1)) + 1 ↔
      ∃ k : Nat, k < e.win_length ∧ ∀ i : Nat, i < e.win_length →
        cellValue e.board e.rows e.columns ((row : Int) + ((i : Int) - (k : Int)) * 1)
          ((col : Int) + ((i : Int) - (k : Int)) * 0) = e.board row col) := by
  have h0 : cellValue e.board e.rows e.columns ((row : Int) + 0 * 1) ((col : Int) + 0 * 0)
      = e.board row col := by
    rw [zero_mul, zero_mul, add_zero, add_zero, cellValue_of_inBounds]
    · rw [Int.toNat_natCast, Int.toNat_natCast]
    · rw [inBounds_def]
      omega
  have hB : ∀ n : Nat, n ≤ lineLen (e.dirSlice row col (-1) 0 (row + 1)) ↔
      ∀ i : Nat, i < n →
        cellValue e.board e.rows e.columns ((row : Int) + (-((i : Int) + 1)) * 1)
          ((col : Int) + (-((i : Int) + 1)) * 0) = e.board row col := by
    intro n
    rw [lineLen_dirSlice_ge_iff e row col (-1) 0 (row + 1) n hrow hcol hpiece]
    · apply forall_congr'
      intro t
      apply imp_congr_right
      intro _
      rw [show ((row : Int) + ((t : Int) + 1) * (-1))
          = ((row : Int) + (-((t : Int) + 1)) * 1) from by ring,
        show ((col : Int) + ((t : Int) + 1) * 0)
          = ((col : Int) + (-((t : Int) + 1)) * 0) from by ring]
    · intro i
      rw [inBounds_def]
      constructor
      · intro hi
        refine ⟨by omega, by omega, by omega, by omega⟩
      · intro hin
        omega
  have hF : ∀ n : Nat, n ≤ 0 ↔
      ∀ i : Nat, i < n →
        cellValue e.board e.rows e.columns ((row : Int) + ((i : Int) + 1) * 1)
          ((col : Int) + ((i : Int) + 1) * 0) = e.board row col := by
    intro n
    constructor
    · intro hn i hi
      exact absurd hi (by omega)
    · intro h
      by_contra hn
      have hp := h 0 (by omega)
      have hc1 : ((row : Int) + (((0 : Nat) : Int) + 1) * 1) = ((row : Int) + 1) := by
        push_cast
        ring
      have hc2 : ((col : Int) + (((0 : Nat) : Int) + 1) * 0) = (col : Int) := by
        push_cast
        ring
      rw [hc1, hc2] at hp
      by_cases hin : inBounds e.rows e.columns ((row : Int) + 1) (col : Int)
      · rw [cellValue_of_inBounds _ _ _ _ _ hin] at hp
        rw [inBounds_def] at hin
        have h1 : ((row : Int) + 1).toNat = row + 1 := by omega
        have h2 : ((col : Int)).toNat = col := Int.toNat_natCast col
        rw [h1, h2] at hp
        have hz := habove (row + 1) (by omega) (by omega)
        rw [hz] at hp
        exact hpiece hp.symm
      · rw [cellValue_of_notInBounds _ _ _ _ _ hin] at hp
        exact hpiece hp.symm
  exact window_iff
    (fun s => cellValue e.board e.rows e.columns ((row : Int) + s * 1) ((col : Int) + s * 0)
      = e.board row col)
    (lineLen (e.dirSlice row col (-1) 0 (row + 1))) 0 e.win_length h0 hB hF hW

/-- Expanding the oracle's axis quantifier into its four concrete axes and
dropping the (redundant, since the piece value is non-zero) `inBounds`
conjunct. -/
theorem rescanWinAt_iff_or (e : Connect4) (row col : Nat) (hpiece : e.board row col ≠ 0) :
    e.rescanWinAt row col ↔
      ((∃ k : Nat, k < e.win_length ∧ ∀ i : Nat, i < e.win_length →
        cellValue e.board e.rows e.columns ((row : Int) + ((i : Int) - (k : Int)) * 1)
          ((col : Int) + ((i : Int) - (k : Int)) * 0) = e.board row col) ∨
      (∃ k : Nat, k < e.win_length ∧ ∀ i : Nat, i < e.win_length →
        cellValue e.board e.rows e.columns ((row : Int) + ((i : Int) - (k : Int)) * 0)
          ((col : Int) + ((i : Int) - (k : Int)) * 1) = e.board row col) ∨
      (∃ k : Nat, k < e.win_length ∧ ∀ i : Nat, i < e.win_length →
        cellValue e.board e.rows e.columns ((row : Int) + ((i : Int) - (k : Int)) * 1)
          ((col : Int) + ((i : Int) - (k : Int)) * 1) = e.board row col) ∨
      (∃ k : Nat, k < e.win_length ∧ ∀ i : Nat, i < e.win_length →
        cellValue e.board e.rows e.columns ((row : Int) + ((i : Int) - (k : Int)) * 1)
          ((col : Int) + ((i : Int) - (k : Int)) * (-1)) = e.board row col)) := by
  unfold Connect4.rescanWinAt
  constructor
  · rintro ⟨d, k, hk, hall⟩
    fin_cases d
    · exact Or.inl ⟨k, hk, fun i hi => (hall i hi).2⟩
    · exact Or.inr (Or.inl ⟨k, hk, fun i hi => (hall i hi).2⟩)
    · exact Or.inr (Or.inr (Or.inl ⟨k, hk, fun i hi => (hall i hi).2⟩))
    · exact Or.inr (Or.inr (Or.inr ⟨k, hk, fun i hi => (hall i hi).2⟩))
  · rintro (⟨k, hk, hall⟩ | ⟨k, hk, hall⟩ | ⟨k, hk, hall⟩ | ⟨k, hk, hall⟩)
    · exact ⟨0, k, hk, fun i hi =>
        (inBounds_and_cellValue_iff e.board e.rows e.columns _ _ _ hpiece).mpr (hall i hi)⟩
    · exact ⟨1, k, hk, fun i hi =>
        (inBounds_and_cellValue_iff e.board e.rows e.columns _ _ _ hpiece).mpr (hall i hi)⟩
    · exact ⟨2, k, hk, fun i hi =>
        (inBounds_and_cellValue_iff e.board e.rows e.columns _ _ _ hpiece).mpr (hall i hi)⟩
    · exact ⟨3, k, hk, fun i hi =>
        (inBounds_and_cellValue_iff e.board e.rows e.columns _ _ _ hpiece).mpr (hall i hi)⟩

/-- C1: for a cell `(row, col)` holding the piece just placed (non-empty, all
cells above it in its column still empty), the incremental check `_is_win`
agrees with the spec's full-board rescan oracle on all four axes. -/
theorem is_win_iff_rescanWinAt (e : Connect4) (row col : Nat)
    (hrow : row < e.rows) (hcol : col < e.columns)
    (hpiece : e.board row col ≠ 0)
    (habove : ∀ r : Nat, r < e.rows → row < r → e.board r col = 0)
    (hW : 1 ≤ e.win_length) :
    e.is_win row col = true ↔ e.rescanWinAt row col := by
  rw [rescanWinAt_iff_or e row col hpiece]
  simp only [Connect4.is_win, Bool.or_eq_true, decide_eq_true_eq]
  rw [or_assoc, or_assoc]
  have hlenHB : ∀ i : Nat, i < col + 1 ↔
      inBounds e.rows e.columns ((row : Int) + (i : Int) * (-0)) ((col : Int) + (i : Int) * (-1)) := by
    intro i
    rw [inBounds_def]
    simp only [neg_zero, mul_zero, mul_neg_one, add_zero]
    constructor
    · intro h
      refine ⟨by omega, by omega, by omega, by omega⟩
    · intro h
      omega
  have hlenHF : ∀ i : Nat, i < e.columns - col ↔
      inBounds e.rows e.columns ((row : Int) + (i : Int) * 0) ((col : Int) + (i : Int) * 1) := by
    intro i
    rw [inBounds_def]
    simp only [mul_zero, mul_one, add_zero]
    constructor
    · intro h
      refine ⟨by omega, by omega, by omega, by omega⟩
    · intro h
      omega
  have hlenRB : ∀ i : Nat, i < min (row + 1) (col + 1) ↔
      inBounds e.rows e.columns ((row : Int) + (i : Int) * (-1)) ((col : Int) + (i : Int) * (-1)) := by
    intro i
    rw [inBounds_def]
    simp only [mul_neg_one]
    constructor
    · intro h
      refine ⟨by omega, by omega, by omega, by omega⟩
    · intro h
      omega
  have hlenRF : ∀ i : Nat, i < min (e.rows - row) (e.columns - col) ↔
      inBounds e.rows e.columns ((row : Int) + (i : Int) * 1) ((col : Int) + (i : Int) * 1) := by
    intro i
    rw [inBounds_def]
    simp only [mul_one]
    constructor
    · intro h
      refine ⟨by omega, by omega, by omega, by omega⟩
    · intro h
      omega
  have hlenFB : ∀ i : Nat, i < min (row + 1) (e.columns - col) ↔
      inBounds e.rows e.columns ((row : Int) + (i : Int) * (-1))
        ((col : Int) + (i : Int) * (-(-1))) := by
    intro i
    rw [inBounds_def]
    simp only [neg_neg, mul_neg_one, mul_one]
    constructor
    · intro h
      refine ⟨by omega, by omega, by omega, by omega⟩
    · intro h
      omega
  have hlenFF : ∀ i : Nat, i < min (e.rows - row) (col + 1) ↔
      inBounds e.rows e.columns ((row : Int) + (i : Int) * 1) ((col : Int) + (i : Int) * (-1)) := by
    intro i
    rw [inBounds_def]
    simp only [mul_one, mul_neg_one]
    constructor
    · intro h
      refine ⟨by omega, by omega, by omega, by omega⟩
    · intro h
      omega
  apply or_congr
  · exact vertical_window_iff e row col hrow hcol hpiece hW habove
  apply or_congr
  · exact axis_window_iff e row col 0 1 hrow hcol hpiece hW (col + 1) (e.columns - col)
      hlenHB hlenHF
  apply or_congr
  · rw [Nat.add_comm
      (lineLen (e.dirSlice row col 1 1 (min (e.rows - row) (e.columns - col))))
      (lineLen (e.dirSlice row col (-1) (-1) (min (row + 1) (col + 1))))]
    exact axis_window_iff e row col 1 1 hrow hcol hpiece hW (min (row + 1) (col + 1))
      (min (e.rows - row) (e.columns - col)) hlenRB hlenRF
  · rw [Nat.add_comm
      (lineLen (e.dirSlice row col 1 (-1) (min (e.rows - row) (col + 1))))
      (lineLen (e.dirSlice row col (-1) 1 (min (row + 1) (e.columns - col))))]
    exact axis_window_iff e row col 1 (-1) hrow hcol hpiece hW (min (row + 1) (e.columns - col))
      (min (e.rows - row) (col + 1)) hlenFB hlenFF

/-! ## The `step` state machine -/

/-- `step` after a successful agent move reduces to the win/draw/opponent
chain of lines 71-83. -/
theorem step_after_ok (e : Connect4) (opp : Opponent) (a : Int) (e1 : Connect4) (row : Nat)
    (hok : e.apply_move a 1 = .ok e1 row) :
    e.step opp a =
      (if e1.is_win row a.toNat then StepResult.ok e1 1 true false
       else if e1.num_moves = e1.rows * e1.columns then StepResult.ok e1 0 true false
       else match e1.opponent_move opp with
         | .illegal e2 => StepResult.illegalOpponentMove e2
         | .fullColumn e2 => StepResult.moveIntoFullColumn e2
         | .ok e2 orow ocol =>
           if e2.is_win orow ocol then StepResult.ok e2 (-1) true false
           else if e2.num_moves = e2.rows * e2.columns then StepResult.ok e2 0 true false
           else StepResult.ok e2 0 false false) := by
  unfold Connect4.step
  rw [hok]

/-- Every normal return of `step` carries `truncated = false`. -/
theorem step_truncated_false (e : Connect4) (opp : Opponent) (a : Int)
    (e' : Connect4) (r : Int) (t tr : Bool)
    (h : e.step opp a = .ok e' r t tr) : tr = false := by
  unfold Connect4.step at h
  repeat' split at h
  all_goals
    first
      | exact StepResult.noConfusion h
      | (injection h with h1 h2 h3 h4
         exact h4.symm)

/-- C2: from an in-progress state with a legal agent action, `step` follows
exactly the reward/termination chain of the spec: agent win → `(+1, true)`;
else board full → `(0, true)`; else after a successful opponent move:
opponent win → `(-1, true)`; else board full → `(0, true)`; else
`(0, false)`.  In every case `truncated` is `false`.  ("Board full" is the
code's draw test `num_moves = rows * columns`, the spec's `is_full()`.) -/
theorem step_branches (e : Connect4) (opp : Opponent) (a : Int)
    (hr : 1 ≤ e.rows)
    (hleg : 0 ≤ a ∧ a < (e.columns : Int) ∧ e.board (e.rows - 1) a.toNat = 0) :
    ∃ e1 row, e.apply_move a 1 = .ok e1 row ∧
      ((e1.is_win row a.toNat = true → e.step opp a = .ok e1 1 true false) ∧
       (e1.is_win row a.toNat = false → e1.num_moves = e1.rows * e1.columns →
         e.step opp a = .ok e1 0 true false) ∧
       (e1.is_win row a.toNat = false → e1.num_moves ≠ e1.rows * e1.columns →
         ∀ e2 orow ocol, e1.opponent_move opp = .ok e2 orow ocol →
           ((e2.is_win orow ocol = true → e.step opp a = .ok e2 (-1) true false) ∧
            (e2.is_win orow ocol = false → e2.num_moves = e2.rows * e2.columns →
              e.step opp a = .ok e2 0 true false) ∧
            (e2.is_win orow ocol = false → e2.num_moves ≠ e2.rows * e2.columns →
              e.step opp a = .ok e2 0 false false)))) ∧
      (∀ e' r t tr, e.step opp a = .ok e' r t tr → tr = false) := by
  obtain ⟨row, hok, _, _, _⟩ := apply_move_ok e a 1 hleg hr
  refine ⟨_, row, hok, ⟨?_, ?_, ?_⟩, fun e' r t tr h => step_truncated_false e opp a e' r t tr h⟩
  · intro hwin
    rw [step_after_ok e opp a _ row hok, if_pos hwin]
  · intro hwin hfull
    rw [step_after_ok e opp a _ row hok, if_neg (by rw [hwin]; exact Bool.false_ne_true),
      if_pos hfull]
  · intro hwin hfull e2 orow ocol hopp
    have hstep := step_after_ok e opp a _ row hok
    rw [if_neg (by rw [hwin]; exact Bool.false_ne_true), if_neg hfull, hopp] at hstep
    have hstep2 : e.step opp a =
        (if e2.is_win orow ocol then StepResult.ok e2 (-1) true false
         else if e2.num_moves = e2.rows * e2.columns then StepResult.ok e2 0 true false
         else StepResult.ok e2 0 false false) := hstep
    refine ⟨?_, ?_, ?_⟩
    · intro hwin2
      rw [hstep2, if_pos hwin2]
    · intro hwin2 hfull2
      rw [hstep2, if_neg (by rw [hwin2]; exact Bool.false_ne_true), if_pos hfull2]
    · intro hwin2 hfull2
      rw [hstep2, if_neg (by rw [hwin2]; exact Bool.false_ne_true), if_neg hfull2]

theorem apply_move_ok_env (e : Connect4) (col p : Int) (e1 : Connect4) (row : Nat)
    (h : e.apply_move col p = .ok e1 row) :
    e1.rows = e.rows ∧ e1.columns = e.columns ∧ e1.win_length = e.win_length ∧
      e1.num_moves = e.num_moves + 1 := by
  unfold Connect4.apply_move at h
  split at h
  · exact ApplyResult.noConfusion h
  · unfold Connect4.move at h
    split at h
    · rename_i e1' row' heq
      injection h with h1 h2
      subst h1
      split at heq
      · injection heq with ha hb
        rw [← ha]
        exact ⟨rfl, rfl, rfl, rfl⟩
      · injection heq with ha hb
        exact Option.noConfusion hb
    · exact ApplyResult.noConfusion h

theorem opponent_move_ne_fullColumn (e : Connect4) (opp : Opponent) (hr : 1 ≤ e.rows) :
    ∀ e', e.opponent_move opp ≠ OppResult.fullColumn e' := by
  intro e' hcon
  rw [opponent_move_eq] at hcon
  split at hcon
  · exact OppResult.noConfusion hcon
  · exact OppResult.noConfusion hcon
  · rename_i e2 heq
    exact apply_move_ne_fullColumn e _ (-1) hr e2 heq

/-- C3 (amended): `step` raises the agent-side `IllegalMoveError` exactly when
the action is out of range or its column's top cell is occupied — the code
keeps no episode-status flag, so this criterion is the same whether or not a
previous `step` reported `terminated = true`.  In particular after a draw
(every top-row cell occupied) every action raises, while after a win that
leaves a playable column `step` accepts further moves. -/
theorem step_illegalMove_iff (e : Connect4) (opp : Opponent) (a : Int) :
    (e.step opp a = StepResult.illegalMove e ↔
      ¬(0 ≤ a ∧ a < (e.columns : Int) ∧ e.board (e.rows - 1) a.toNat = 0)) ∧
    ((∀ c, c < e.columns → e.board (e.rows - 1) c ≠ 0) →
      e.step opp a = StepResult.illegalMove e) := by
  have hiff : e.step opp a = StepResult.illegalMove e ↔
      ¬(0 ≤ a ∧ a < (e.columns : Int) ∧ e.board (e.rows - 1) a.toNat = 0) := by
    constructor
    · intro hstep hleg
      have hguard : ¬(¬(0 ≤ a ∧ a < (e.columns : Int)) ∨ e.board (e.rows - 1) a.toNat ≠ 0) := by
        push_neg
        exact ⟨⟨hleg.1, hleg.2.1⟩, hleg.2.2⟩
      rcases hm : e.move a.toNat 1 with ⟨e1, orow⟩
      rcases orow with _ | row
      · have happ : e.apply_move a 1 = .fullColumn e1 := by
          unfold Connect4.apply_move
          rw [if_neg hguard, hm]
        unfold Connect4.step at hstep
        rw [happ] at hstep
        exact StepResult.noConfusion hstep
      · have happ : e.apply_move a 1 = .ok e1 row := by
          unfold Connect4.apply_move
          rw [if_neg hguard, hm]
        have hchain := step_after_ok e opp a e1 row happ
        rw [hstep] at hchain
        repeat' split at hchain
        all_goals exact StepResult.noConfusion hchain
    · intro hnleg
      unfold Connect4.step
      rw [apply_move_illegal_eq e a 1 hnleg]
  refine ⟨hiff, ?_⟩
  intro hfull
  rw [hiff]
  intro hleg
  have hc : a.toNat < e.columns := by
    have h1 := hleg.1
    have h2 := hleg.2.1
    omega
  exact hfull a.toNat hc hleg.2.2

/-- C4: if, after a legal agent move that neither wins nor fills the board,
the opponent policy returns an out-of-range or full column, `step` propagates
the `IllegalOpponentMoveError` carrying exactly the state `e1` left by the
agent's move: the grid and `num_moves` are unchanged from just before the
opponent's turn, and the agent's move of that step remains applied
(`num_moves` is the old count plus one). -/
theorem opponent_illegal_propagates (e : Connect4) (opp : Opponent) (a : Int)
    (hwin : ∀ e1 row, e.apply_move a 1 = .ok e1 row → e1.is_win row a.toNat = false)
    (e1 : Connect4) (row : Nat)
    (hmv : e.apply_move a 1 = .ok e1 row)
    (hfull : e1.num_moves ≠ e1.rows * e1.columns)
    (hbad : ¬(0 ≤ opp (e1.get_observation (-1)) e1.action_masks ∧
        opp (e1.get_observation (-1)) e1.action_masks < (e1.columns : Int) ∧
        e1.board (e1.rows - 1) (opp (e1.get_observation (-1)) e1.action_masks).toNat = 0)) :
    e.step opp a = StepResult.illegalOpponentMove e1 ∧ e1.num_moves = e.num_moves + 1 := by
  constructor
  · have hopp : e1.opponent_move opp = OppResult.illegal e1 := by
      rw [opponent_move_eq, apply_move_illegal_eq e1 _ (-1) hbad]
    rw [step_after_ok e opp a e1 row hmv,
      if_neg (by rw [hwin e1 row hmv]; exact Bool.false_ne_true), if_neg hfull, hopp]
  · exact (apply_move_ok_env e a 1 e1 row hmv).2.2.2

/-- C6: the guarded move (the spec's `apply_move`).  On a gravity-consistent
column: an out-of-range or full column is rejected with the state unchanged;
otherwise the piece lands on the lowest empty row of the column, every other
cell is unchanged, `num_moves` grows by exactly one, and the landing row is
returned. -/
theorem apply_move_full_spec (e : Connect4) (c : Int) (p : Int)
    (hr : 1 ≤ e.rows)
    (hgrav : ∀ r2, r2 < e.rows → ∀ r1, r1 ≤ r2 → e.board r2 c.toNat ≠ 0 →
      e.board r1 c.toNat ≠ 0) :
    ((¬(0 ≤ c ∧ c < (e.columns : Int)) ∨ (∀ r, r < e.rows → e.board r c.toNat ≠ 0)) →
        e.apply_move c p = .illegal e) ∧
    ((0 ≤ c ∧ c < (e.columns : Int)) → (∃ r, r < e.rows ∧ e.board r c.toNat = 0) →
      ∃ e1 row, e.apply_move c p = .ok e1 row ∧
        row < e.rows ∧ e.board row c.toNat = 0 ∧ (∀ r, r < row → e.board r c.toNat ≠ 0) ∧
        e1.board row c.toNat = p ∧
        (∀ r' c', ¬(r' = row ∧ c' = c.toNat) → e1.board r' c' = e.board r' c') ∧
        e1.num_moves = e.num_moves + 1 ∧
        e1.rows = e.rows ∧ e1.columns = e.columns ∧ e1.win_length = e.win_length) := by
  constructor
  · rintro (hout | hfull)
    · apply apply_move_illegal_eq
      intro hcon
      exact hout ⟨hcon.1, hcon.2.1⟩
    · apply apply_move_illegal_eq
      intro hcon
      exact hfull (e.rows - 1) (by omega) hcon.2.2
  · rintro hin ⟨r0, hr0, hempty⟩
    have htop : e.board (e.rows - 1) c.toNat = 0 := by
      by_contra htop
      exact hgrav (e.rows - 1) (by omega) r0 (by omega) htop hempty
    obtain ⟨row, hok, hrow, hcell, hmin⟩ := apply_move_ok e c p ⟨hin.1, hin.2, htop⟩ hr
    refine ⟨_, row, hok, hrow, hcell, hmin, ?_, ?_, rfl, rfl, rfl, rfl⟩
    · show setCell e.board row c.toNat p row c.toNat = p
      unfold setCell
      rw [if_pos ⟨rfl, rfl⟩]
    · intro r' c' hne
      show setCell e.board row c.toNat p r' c' = e.board r' c'
      unfold setCell
      rw [if_neg hne]

/-- C9: the action mask is true at a column exactly when its top-row cell
(row `rows - 1`) is empty; on a completely full board it is false at every
column. -/
theorem action_masks_spec (e : Connect4) (c : Nat) (hc : c < e.columns) :
    (e.action_masks c = true ↔ e.board (e.rows - 1) c = 0) ∧
    (1 ≤ e.rows → (∀ r, r < e.rows → ∀ c2, c2 < e.columns → e.board r c2 ≠ 0) →
      e.action_masks c = false) := by
  constructor
  · unfold Connect4.action_masks
    exact beq_iff_eq
  · intro hr hfull
    unfold Connect4.action_masks
    rw [beq_eq_false_iff_ne]
    exact hfull (e.rows - 1) (by omega) c hc

/-- C10: `_move` on a column with no empty cell increments `_num_moves` before
raising, so on the error path the grid (and hence the piece count) is
unchanged while the counter now exceeds the occupied-cell count by one; and
this branch is unreachable through `step` and `reset`, whose guards check the
column's top cell before calling `_move`. -/
theorem move_full_column_spec (e : Connect4) :
    (∀ col p, (∀ r, r < e.rows → e.board r col ≠ 0) →
      e.move col p = ({ e with num_moves := e.num_moves + 1 }, none) ∧
        ({ e with num_moves := e.num_moves + 1 } : Connect4).countPieces = e.countPieces) ∧
    (1 ≤ e.rows → ∀ opp a e', e.step opp a ≠ StepResult.moveIntoFullColumn e') ∧
    (1 ≤ e.rows → ∀ opp b e', e.reset opp b ≠ ResetResult.moveIntoFullColumn e') := by
  refine ⟨?_, ?_, ?_⟩
  · intro col p hfull
    have hnone : findEmptyRow e.board col e.rows 0 = none := by
      rw [findEmptyRow_none_iff]
      intro i hi
      exact hfull (0 + i) (by omega)
    constructor
    · unfold Connect4.move
      rw [hnone]
    · rfl
  · intro hr opp a e' hcon
    unfold Connect4.step at hcon
    split at hcon
    · exact StepResult.noConfusion hcon
    · rename_i e1 heq
      exact apply_move_ne_fullColumn e a 1 hr e1 heq
    · rename_i e1 row heq
      have hr1 : 1 ≤ e1.rows := by
        rw [(apply_move_ok_env e a 1 e1 row heq).1]
        exact hr
      repeat' split at hcon
      all_goals
        first
          | exact StepResult.noConfusion hcon
          | (rename_i e2 heq2
             exact opponent_move_ne_fullColumn e1 opp hr1 e2 heq2)
  · intro hr opp b e' hcon
    cases b with
    | false => exact ResetResult.noConfusion hcon
    | true =>
      have hres : e.reset opp true =
          match e.clean.opponent_move opp with
          | .ok e1 _ _ => ResetResult.ok e1
          | .illegal e1 => ResetResult.illegalOpponentMove e1
          | .fullColumn e1 => ResetResult.moveIntoFullColumn e1 := rfl
      rw [hres] at hcon
      split at hcon
      · exact ResetResult.noConfusion hcon
      · exact ResetResult.noConfusion hcon
      · rename_i e1 heq
        exact opponent_move_ne_fullColumn e.clean opp hr e1 heq

/-- C5: in every state reachable from `reset` through the public operations
(`action_masks` and `_get_observation` write nothing; `step` outcomes,
including exception-carrying ones, are all included), the number of occupied
cells equals `num_moves`; consequently a completely full board has
`num_moves = rows * columns`. -/
theorem move_count_invariant (e : Connect4) (he : e.Reachable) :
    e.countPieces = e.num_moves ∧
      ((∀ r, r < e.rows → ∀ c, c < e.columns → e.board r c ≠ 0) →
        e.num_moves = e.rows * e.columns) := by
  obtain ⟨hr, hcount, hvals⟩ := reachable_inv e he
  refine ⟨hcount, ?_⟩
  intro hfull
  rw [← hcount]
  show pieceCount e.rows e.columns e.board = _
  exact pieceCount_full e.rows e.columns e.board fun r c hr2 hc2 => hfull r hr2 c hc2

/-- C8: in every reachable state, for viewing player `1` or `-1`, the two
observation planes are disjoint at every cell, and the number of cells set in
either plane equals `num_moves`.  (`_get_observation` is a pure projection by
construction in this model, mirroring the source, which only reads
`self._board`.) -/
theorem observation_spec (e : Connect4) (p : Int) (he : e.Reachable)
    (hp : p = 1 ∨ p = -1) :
    (∀ r c, ¬((e.get_observation p).1 r c = true ∧ (e.get_observation p).2 r c = true)) ∧
    e.obsCount p = e.num_moves := by
  obtain ⟨hr, hcount, hvals⟩ := reachable_inv e he
  have hpne : p ≠ 0 := by
    rcases hp with rfl | rfl <;> decide
  constructor
  · rintro r c ⟨h1, h2⟩
    simp only [Connect4.get_observation, beq_iff_eq] at h1 h2
    rw [h1] at h2
    rcases hp with rfl | rfl
    · exact absurd h2 (by decide)
    · exact absurd h2 (by decide)
  · unfold Connect4.obsCount
    rw [← hcount]
    show _ = pieceCount e.rows e.columns e.board
    unfold pieceCount
    congr 1
    apply Finset.filter_congr
    intro q _
    simp only [Connect4.get_observation, beq_iff_eq]
    constructor
    · rintro (hq1 | hq2)
      · rw [hq1]
        exact hpne
      · rw [hq2]
        exact neg_ne_zero.mpr hpne
    · intro hne
      rcases hvals q.1 q.2 with h0 | h1 | h2
      · exact absurd h0 hne
      · rcases hp with rfl | rfl
        · exact Or.inl h1
        · exact Or.inr (by rw [h1]; decide)
      · rcases hp with rfl | rfl
        · exact Or.inr (by rw [h2])
        · exact Or.inl h2

/-- C7 (amended): `reset` rebuilds the state from the configuration alone
(two states with the same configuration reset identically, so no residual
state leaks through repeated resets), clears the grid and zeroes `num_moves`,
and exactly when the injected random draw selects it the opponent moves once
through the same `_opponent_move` routine (and hence the same legality
validation) used for in-episode opponent moves; afterwards the board holds
either no piece or exactly one opponent (`-1`) piece.  `reset` discards the
returned coordinates, so no win check is applied to this first move. -/
theorem reset_spec (e : Connect4) (opp : Opponent) (b : Bool) (hr : 1 ≤ e.rows) :
    (∀ e2 : Connect4, e2.rows = e.rows → e2.columns = e.columns →
      e2.win_length = e.win_length → e2.reset opp b = e.reset opp b) ∧
    (b = false → e.reset opp b = .ok e.clean) ∧
    (b = true → e.reset opp b =
      (match e.clean.opponent_move opp with
       | .ok e1 _ _ => ResetResult.ok e1
       | .illegal e1 => ResetResult.illegalOpponentMove e1
       | .fullColumn e1 => ResetResult.moveIntoFullColumn e1)) ∧
    (e.reset opp b).env.num_moves ≤ 1 ∧
    ((∀ r c, (e.reset opp b).env.board r c = 0) ∨
      (∃ r0 c0, r0 < e.rows ∧ c0 < e.columns ∧ (e.reset opp b).env.board r0 c0 = -1 ∧
        ∀ r' c', ¬(r' = r0 ∧ c' = c0) → (e.reset opp b).env.board r' c' = 0)) := by
  have hmain : ((e.reset opp b).env = e.clean) ∨
      (∃ r0 c0, r0 < e.rows ∧ c0 < e.columns ∧
        (e.reset opp b).env =
          { rows := e.rows, columns := e.columns, win_length := e.win_length,
            board := setCell (fun _ _ => 0) r0 c0 (-1), num_moves := 1 }) := by
    cases b with
    | false => exact Or.inl rfl
    | true =>
      have hres : e.reset opp true =
          match e.clean.opponent_move opp with
          | .ok e1 _ _ => ResetResult.ok e1
          | .illegal e1 => ResetResult.illegalOpponentMove e1
          | .fullColumn e1 => ResetResult.moveIntoFullColumn e1 := rfl
      by_cases hlegop : 0 ≤ opp (e.clean.get_observation (-1)) e.clean.action_masks ∧
          opp (e.clean.get_observation (-1)) e.clean.action_masks < (e.clean.columns : Int)
      · obtain ⟨row, hok, hrow, _, _⟩ :=
          apply_move_ok e.clean (opp (e.clean.get_observation (-1)) e.clean.action_masks) (-1)
            ⟨hlegop.1, hlegop.2, rfl⟩ hr
        right
        refine ⟨row, (opp (e.clean.get_observation (-1)) e.clean.action_masks).toNat, hrow, ?_, ?_⟩
        · have h1 := hlegop.1
          have h2 : opp (e.clean.get_observation (-1)) e.clean.action_masks
              < (e.columns : Int) := hlegop.2
          show _ < e.columns
          omega
        · rw [hres, opponent_move_eq, hok]
          rfl
      · left
        have hnleg : ¬(0 ≤ opp (e.clean.get_observation (-1)) e.clean.action_masks ∧
            opp (e.clean.get_observation (-1)) e.clean.action_masks < (e.clean.columns : Int) ∧
            e.clean.board (e.clean.rows - 1)
              (opp (e.clean.get_observation (-1)) e.clean.action_masks).toNat = 0) :=
          fun hcon => hlegop ⟨hcon.1, hcon.2.1⟩
        rw [hres, opponent_move_eq, apply_move_illegal_eq e.clean _ (-1) hnleg]
        rfl
  refine ⟨?_, ?_, ?_, ?_, ?_⟩
  · intro e2 h1 h2 h3
    have hcl : e2.clean = e.clean := by
      unfold Connect4.clean
      rw [h1, h2, h3]
    show (if b then _ else _) = (if b then _ else _)
    rw [hcl]
  · rintro rfl
    rfl
  · rintro rfl
    rfl
  · rcases hmain with hclean | ⟨r0, c0, _, _, hrec⟩
    · rw [hclean]
      exact Nat.zero_le 1
    · rw [hrec]
  · rcases hmain with hclean | ⟨r0, c0, hr0, hc0, hrec⟩
    · left
      intro r c
      rw [hclean]
      rfl
    · right
      refine ⟨r0, c0, hr0, hc0, ?_, ?_⟩
      · rw [hrec]
        show setCell (fun _ _ => 0) r0 c0 (-1) r0 c0 = -1
        unfold setCell
        rw [if_pos ⟨rfl, rfl⟩]
      · intro r' c' hne
        rw [hrec]
        show setCell (fun _ _ => 0) r0 c0 (-1) r' c' = 0
        unfold setCell
        rw [if_neg hne]

/-! ## Concrete instances for counterexamples and witnesses -/

/-- The all-empty grid. -/
def zeroBoard : Nat → Nat → Int := fun _ _ => 0

/-- An opponent that always plays column 2. -/
def oppTwo : Opponent := fun _ _ => 2

/-- An opponent that always plays column 0. -/
def oppZero : Opponent := fun _ _ => 0

/-- An opponent that always answers 7 — out of range on small boards. -/
def oppSeven : Opponent := fun _ _ => 7

/-- A fresh 2 × 4 game needing 2 in a row. -/
def envA : Connect4 := ⟨2, 4, 2, zeroBoard, 0⟩

/-- The state after the agent move of `envA.step _ 0`. -/
def envA1 : Connect4 := (envA.move 0 1).1

/-- A fresh 1 × 2 game that is won by any first piece (`win_length = 1`). -/
def envW : Connect4 := ⟨1, 2, 1, zeroBoard, 0⟩

/-- A full 1 × 1 board. -/
def envFull : Connect4 := ⟨1, 1, 2, (fun _ _ => 1), 1⟩

/-- A 2 × 2 board with an agent piece at (0,0), an opponent piece at (0,1),
and `win_length = 2`. -/
def envC1 : Connect4 :=
  ⟨2, 2, 2, (fun r c => if r = 0 ∧ c = 0 then 1 else if r = 0 ∧ c = 1 then -1 else 0), 2⟩

/-- C3 counterexample: in the 2 × 4 game with `win_length = 2` against an
opponent that always plays column 2, the agent's second move (columns 0 then
1) wins — `step` returns `terminated = true` — yet a further `step` on the
resulting state with the playable column 0 does not raise
`IllegalMoveError`: it applies the move and returns a normal result. -/
theorem step_after_terminated_cex :
    ((envA.step oppTwo 0).env.step oppTwo 1).signal = some (1, true, false) ∧
    (((envA.step oppTwo 0).env.step oppTwo 1).env.step oppTwo 0).isIllegalMove = false ∧
    (((envA.step oppTwo 0).env.step oppTwo 1).env.step oppTwo 0).signal
      = some (1, true, false) :=
  ⟨rfl, rfl, rfl⟩

/-- C7 counterexample: with `win_length = 1` the opponent's first move made
inside `reset` is a winning move — `_is_win` holds at the placed cell — but
`reset` returns a plain result with no win handling (the source discards
`_opponent_move`'s coordinates and never calls `_is_win` on them), whereas
the same kind of winning opponent move made in-episode is win-checked by
`step` and yields reward `-1` with `terminated = true`. -/
theorem reset_no_win_check_cex :
    (envW.reset oppZero true).isOk = true ∧
    ((envW.reset oppZero true).env).is_win 0 0 = true ∧
    ((envA.step oppTwo 0).env.step oppTwo 3).signal = some (-1, true, false) :=
  ⟨rfl, rfl, rfl⟩

/-! ## Concrete witnesses -/

theorem is_win_iff_rescanWinAt_witness :
    ((0 : Nat) < envC1.rows ∧ (0 : Nat) < envC1.columns ∧ envC1.board 0 0 ≠ 0 ∧
      (∀ r : Nat, r < envC1.rows → 0 < r → envC1.board r 0 = 0) ∧ 1 ≤ envC1.win_length) ∧
    (envC1.is_win 0 0 = true ↔ envC1.rescanWinAt 0 0) :=
  ⟨⟨by decide, by decide, by decide, by decide, by decide⟩,
    is_win_iff_rescanWinAt envC1 0 0 (by decide) (by decide) (by decide) (by decide) (by decide)⟩

theorem step_branches_witness :
    (1 ≤ envA.rows ∧
      (0 ≤ (0 : Int) ∧ (0 : Int) < (envA.columns : Int) ∧
        envA.board (envA.rows - 1) (0 : Int).toNat = 0)) ∧
    (∀ e' r t tr, envA.step oppTwo 0 = .ok e' r t tr → tr = false) := by
  refine ⟨⟨by decide, by decide⟩, ?_⟩
  obtain ⟨e1, row, hok, hbranch, htr⟩ := step_branches envA oppTwo 0 (by decide) (by decide)
  exact htr

theorem step_illegalMove_iff_witness :
    (∀ c, c < envFull.columns → envFull.board (envFull.rows - 1) c ≠ 0) ∧
    envFull.step oppZero 0 = StepResult.illegalMove envFull :=
  ⟨by decide, (step_illegalMove_iff envFull oppZero 0).2 (by decide)⟩

theorem opponent_illegal_propagates_witness :
    envA.step oppSeven 0 = StepResult.illegalOpponentMove envA1 ∧
      envA1.num_moves = envA.num_moves + 1 :=
  opponent_illegal_propagates envA oppSeven 0
    (by
      intro e1 row h
      have h' : ApplyResult.ok envA1 0 = ApplyResult.ok e1 row := h
      injection h' with h1 h2
      rw [← h1, ← h2]
      decide)
    envA1 0 rfl (by decide) (by decide)

theorem move_count_invariant_witness :
    (envA.reset oppZero false).env.countPieces = (envA.reset oppZero false).env.num_moves :=
  (move_count_invariant ((envA.reset oppZero false).env)
    (Connect4.Reachable.ofReset envA oppZero false (by decide))).1

theorem apply_move_full_spec_witness :
    (1 ≤ envA.rows) ∧ envA.apply_move 7 1 = .illegal envA ∧
      ∃ e1 row, envA.apply_move 0 1 = .ok e1 row ∧ row < envA.rows := by
  refine ⟨by decide,
    (apply_move_full_spec envA 7 1 (by decide) (by decide)).1 (Or.inl (by decide)), ?_⟩
  obtain ⟨e1, row, hok, hrow, _⟩ :=
    (apply_move_full_spec envA 0 1 (by decide) (by decide)).2 (by decide) ⟨0, by decide, rfl⟩
  exact ⟨e1, row, hok, hrow⟩

theorem reset_spec_witness :
    (envA.reset oppZero false = .ok envA.clean) ∧ (envA.reset oppZero true).env.num_moves ≤ 1 :=
  ⟨(reset_spec envA oppZero false (by decide)).2.1 rfl,
    (reset_spec envA oppZero true (by decide)).2.2.2.1⟩

theorem observation_spec_witness :
    ((envA.reset oppZero false).env).obsCount 1 = ((envA.reset oppZero false).env).num_moves :=
  (observation_spec ((envA.reset oppZero false).env) 1
    (Connect4.Reachable.ofReset envA oppZero false (by decide)) (Or.inl rfl)).2

theorem action_masks_spec_witness :
    (envA.action_masks 0 = true ↔ envA.board (envA.rows - 1) 0 = 0) ∧
      envFull.action_masks 0 = false :=
  ⟨(action_masks_spec envA 0 (by decide)).1,
    (action_masks_spec envFull 0 (by decide)).2 (by decide) (by decide)⟩

theorem move_full_column_spec_witness :
    envFull.move 0 1 = ({ envFull with num_moves := envFull.num_moves + 1 }, none) ∧
      ∀ e', envFull.step oppZero 0 ≠ StepResult.moveIntoFullColumn e' := by
  refine ⟨((move_full_column_spec envFull).1 0 1 (by decide)).1, ?_⟩
  intro e'
  exact (move_full_column_spec envFull).2.1 (by decide) oppZero 0 e'
